import Mathlib

/-!
Verification of the banyan index layer (`banyan/src/index.rs`).

The development shallowly embeds the index data model and the index block
codec.  Pure Rust code is translated to Lean functions; the external
libraries the codec calls out to are abstracted:

* `serde_cbor` + `zstd` encoding of the record array (`0x9f` marker,
  each record, `0xff` marker, wrapped into a zstd frame) is a parameter
  `enc : List (IndexWC σ) → List Nat`, and the inverse pipeline on the
  read side (zstd decode, then parsing an array of `IndexRC`) is a
  parameter `dec : List Nat → Option (List (IndexRC σ))`, `none`
  standing for a decode failure;
* the XSalsa20 cipher of the `salsa20` crate is a keystream parameter
  `ks : List Nat → List Nat → Nat → Nat` (key, nonce, byte position);
  `apply_keystream` xors the buffer with that stream, which
  `applyKeystream` below reproduces exactly;
* the outermost CBOR pair `(cids, Value::Bytes(...))` written by
  `serde_cbor::to_writer` and read back by `serde_cbor::from_slice` is
  kept in parsed form: `List Link × CborValue`.

Rust panics (`assert!`, `expect`, `unwrap`, indexing) are modelled with
`Option`, and fallible functions with `Except`.
-/

namespace Banyan

/-! ## SimpleCompactSeq (`index.rs` lines 77–110)

`SimpleCompactSeq<T>(Vec<T>)` is a plain vector; we embed it as `List κ`.
The `Semigroup::combine(&mut self, b)` operation is a parameter
`comb : κ → κ → κ` (receiver first). -/

namespace SimpleCompactSeq

def single (x : κ) : List κ := [x]

def push (s : List κ) (x : κ) : List κ := s ++ [x]

/-- Rust `extend`: `self.0.last_mut().unwrap().combine(item)`.  The `unwrap`
panics on the empty vector; that unreachable case is modelled by `[]`. -/
def extend (comb : κ → κ → κ) : List κ → κ → List κ
  | [], _ => []
  | [a], x => [comb a x]
  | a :: b :: rest, x => a :: extend comb (b :: rest) x

def count (s : List κ) : Nat := s.length

def get (s : List κ) (i : Nat) : Option κ := s[i]?

/-- Rust `summarize`: `res = self.0[0]; for i in 1..len { res.combine(&self.0[i]) }`.
The indexing panics on the empty vector, modelled by `none`. -/
def summarize (comb : κ → κ → κ) : List κ → Option κ
  | [] => none
  | a :: rest => some (rest.foldl comb a)

end SimpleCompactSeq

/-! ## The `CompactSeq` trait's provided methods (`index.rs` lines 46–74) -/

/-- The portion of the `CompactSeq` trait that the provided method
`new` uses: `single` and `push`. -/
structure CompactSeqOps (σ κ : Type) where
  single : κ → σ
  push : σ → κ → σ

/-- Rust `CompactSeq::new`: `single` of the first item (error on an empty
iterator), then `push` each further item. -/
def CompactSeqOps.new (ops : CompactSeqOps σ κ) (items : List κ) : Except String σ :=
  match items with
  | [] => .error "iterator must have at least one item"
  | x :: xs => .ok (xs.foldl ops.push (ops.single x))

/-- The `CompactSeq` instance of `SimpleCompactSeq`. -/
def simpleOps (κ : Type) : CompactSeqOps (List κ) κ :=
  { single := SimpleCompactSeq.single
    push := SimpleCompactSeq.push }

/-- Rust `CompactSeq::to_vec`: `(0..len).map(|i| self.get(i).unwrap())`.
The `unwrap` never fails because `get` succeeds below `count`; the
panic case is modelled by `filterMap` dropping a `none`. -/
def toVec (s : List κ) : List κ :=
  (List.range (SimpleCompactSeq.count s)).filterMap (SimpleCompactSeq.get s)

/-! ## Branch (`index.rs` lines 246–268) -/

/-- Fully in-memory representation of a branch node; `α` stands for
`Index<T>`. -/
structure Branch (α : Type) where
  children : List α

/-- Rust `Branch::new` asserts `!children.is_empty()`; the panic is modelled
by `none`. -/
def Branch.new (children : List α) : Option (Branch α) :=
  if children.isEmpty then none else some ⟨children⟩

/-- Rust `Branch::last_child`; `expect`-panic on empty modelled by `Option`. -/
def Branch.lastChild (b : Branch α) : Option α := b.children.getLast?

/-- Rust `Branch::last_child_mut` reads the same element as `last_child`. -/
def Branch.lastChildMut (b : Branch α) : Option α := b.children.getLast?

/-! ## Index data model (`index.rs` lines 112–244)

`σ` stands for `T::Seq`, `Link` for `T::Link`; the codec treats both as
opaque values. -/

structure LeafIndex (σ Link : Type) where
  sealed : Bool
  cid : Option Link
  keys : σ
  value_bytes : Nat
  deriving DecidableEq

structure BranchIndex (σ Link : Type) where
  count : Nat
  level : Nat
  sealed : Bool
  cid : Option Link
  summaries : σ
  value_bytes : Nat
  key_bytes : Nat
  deriving DecidableEq

inductive Index (σ Link : Type) where
  | leaf (i : LeafIndex σ Link)
  | branch (i : BranchIndex σ Link)
  deriving DecidableEq

def Index.cid : Index σ Link → Option Link
  | .leaf i => i.cid
  | .branch i => i.cid

def Index.isBranch : Index σ Link → Bool
  | .leaf _ => false
  | .branch _ => true

/-! ## Wire records (`index.rs` lines 329–414) -/

/-- Record `IndexWC`: the record serialized for each child. -/
structure IndexWC (σ : Type) where
  count : Option Nat
  level : Option Nat
  key_bytes : Option Nat
  value_bytes : Nat
  sealed : Bool
  purged : Bool
  data : σ
  deriving DecidableEq

/-- Conversion `From<&Index<T>> for IndexWC`: branches carry the three optional
fields, leaves leave them absent; `purged` is `cid.is_none()`. -/
def IndexWC.fromIndex : Index σ Link → IndexWC σ
  | .branch i =>
    { sealed := i.sealed
      purged := i.cid.isNone
      data := i.summaries
      value_bytes := i.value_bytes
      count := some i.count
      level := some i.level
      key_bytes := some i.key_bytes }
  | .leaf i =>
    { sealed := i.sealed
      purged := i.cid.isNone
      data := i.keys
      value_bytes := i.value_bytes
      count := none
      level := none
      key_bytes := none }

/-- Record `IndexRC`: the record deserialized for each child.  CBOR matches the
fields of `IndexWC` by name. -/
structure IndexRC (σ : Type) where
  sealed : Bool
  purged : Bool
  data : σ
  count : Option Nat
  level : Option Nat
  value_bytes : Nat
  key_bytes : Option Nat
  deriving DecidableEq

/-- The field-by-name correspondence the CBOR round trip establishes
between a written `IndexWC` and the `IndexRC` read back. -/
def wcToRc (w : IndexWC σ) : IndexRC σ :=
  { sealed := w.sealed
    purged := w.purged
    data := w.data
    count := w.count
    level := w.level
    value_bytes := w.value_bytes
    key_bytes := w.key_bytes }

/-- Rust `IndexRC::to_index`: pop the front CID for a non-purged record
(`pop_front` of an exhausted deque yields `None`), then build a
`BranchIndex` when `level`, `count` and `key_bytes` are all present and
a `LeafIndex` otherwise.  Returns the index and the remaining deque. -/
def IndexRC.toIndex (r : IndexRC σ) (cids : List Link) :
    Index σ Link × List Link :=
  let pop := if !r.purged then (cids.head?, cids.tail) else (none, cids)
  match r.level, r.count, r.key_bytes with
  | some level, some count, some key_bytes =>
    (.branch
      { summaries := r.data
        sealed := r.sealed
        value_bytes := r.value_bytes
        key_bytes := key_bytes
        count := count
        level := level
        cid := pop.1 }, pop.2)
  | _, _, _ =>
    (.leaf
      { keys := r.data
        sealed := r.sealed
        value_bytes := r.value_bytes
        cid := pop.1 }, pop.2)

/-- Loop `data.into_iter().map(|data| data.to_index(&mut cids))`: the records
in order, threading the CID deque through. -/
def toIndices : List (IndexRC σ) → List Link → List (Index σ Link)
  | [], _ => []
  | r :: rs, cids =>
    let p := r.toIndex cids
    p.1 :: toIndices rs p.2

/-! ## The codec (`index.rs` lines 423–478) -/

/-- The parsed form of the outermost CBOR value holding the encrypted
body: `serde_cbor::Value`.  Only the `Bytes` arm is accepted by
`deserialize_compressed`. -/
inductive CborValue where
  | bytes (bs : List Nat)
  | int (n : Int)
  | text (s : String)
  | null
  deriving DecidableEq

def CborValue.isBytes : CborValue → Bool
  | .bytes _ => true
  | _ => false

/-- Rust `apply_keystream` of the `salsa20` crate: xor each byte with the
keystream, starting at stream position `i`. -/
def applyKeystream (ks : Nat → Nat) : Nat → List Nat → List Nat
  | _, [] => []
  | i, b :: bs => (ks i ^^^ b) :: applyKeystream ks (i + 1) bs

/-- The `cids` accumulation loop of `serialize_compressed`:
`if let Some(cid) = item.cid() { cids.push(cid) }` per item. -/
def collectCids (items : List (Index σ Link)) : List Link :=
  items.foldl
    (fun acc item =>
      match item.cid with
      | some c => acc ++ [c]
      | none => acc)
    []

/-- Rust `serialize_compressed`: build the CID list and the per-child
records, prepend the nonce to the encoded body, encrypt the buffer from
offset 24 (`&mut compressed[24..]`) with XSalsa20 under `(key, nonce)`,
and emit the outer `(cids, Value::Bytes(..))` pair.  `enc` stands for
the zstd-compressed CBOR encoding of the record array together with its
`0x9f`/`0xff` markers. -/
def serialize_compressed (ks : List Nat → List Nat → Nat → Nat)
    (key nonce : List Nat) (enc : List (IndexWC σ) → List Nat)
    (items : List (Index σ Link)) : List Link × CborValue :=
  let compressed := nonce ++ enc (items.map IndexWC.fromIndex)
  (collectCids items,
    .bytes (compressed.take 24 ++
      applyKeystream (ks key nonce) 0 (compressed.drop 24)))

inductive DeserError where
  | nonceMissing
  | formatMismatch
  | decodeFailed
  deriving DecidableEq

/-- Rust `deserialize_compressed` after the outer `from_slice`: require a
byte string (else `expected a byte array containing zstd compressed
cbor`), require length ≥ 24 (else `nonce missing`), split into
`nonce ‖ cipher`, decrypt in place with XSalsa20, decode the record
array (`dec`, `none` standing for a zstd or CBOR failure) and attach
the CIDs. -/
def deserialize_compressed (ks : List Nat → List Nat → Nat → Nat)
    (key : List Nat) (dec : List Nat → Option (List (IndexRC σ)))
    (ipld : List Link × CborValue) :
    Except DeserError (List (Index σ Link)) :=
  match ipld.2 with
  | .bytes compressed =>
    if compressed.length < 24 then .error .nonceMissing
    else
      let nonce := compressed.take 24
      let cipher := compressed.drop 24
      match dec (applyKeystream (ks key nonce) 0 cipher) with
      | some records => .ok (toIndices records ipld.1)
      | none => .error .decodeFailed
  | _ => .error .formatMismatch

/-! ## Codec lemmas -/

theorem applyKeystream_applyKeystream (ks : Nat → Nat) (i : Nat)
    (bs : List Nat) :
    applyKeystream ks i (applyKeystream ks i bs) = bs := by
  induction bs generalizing i with
  | nil => rfl
  | cons b bs ih => simp [applyKeystream, Nat.xor_cancel_left, ih]

theorem collectCids_foldl (items : List (Index σ Link)) :
    ∀ acc : List Link,
      items.foldl
          (fun acc item =>
            match item.cid with
            | some c => acc ++ [c]
            | none => acc)
          acc
        = acc ++ items.filterMap Index.cid := by
  induction items with
  | nil => simp
  | cons it rest ih =>
    intro acc
    cases h : it.cid with
    | none => simp [h, ih]
    | some c => simp [h, ih]

theorem collectCids_eq_filterMap (items : List (Index σ Link)) :
    collectCids items = items.filterMap Index.cid := by
  simpa using collectCids_foldl items []

theorem toIndices_wc_roundtrip (items : List (Index σ Link)) :
    toIndices (items.map fun it => wcToRc (IndexWC.fromIndex it))
        (items.filterMap Index.cid)
      = items := by
  induction items with
  | nil => rfl
  | cons it rest ih =>
    cases it with
    | leaf i =>
      obtain ⟨sealed, cid, keys, vb⟩ := i
      cases cid with
      | none =>
        simpa [toIndices, IndexWC.fromIndex, wcToRc, IndexRC.toIndex,
          Index.cid] using ih
      | some c =>
        simpa [toIndices, IndexWC.fromIndex, wcToRc, IndexRC.toIndex,
          Index.cid] using ih
    | branch i =>
      obtain ⟨count, level, sealed, cid, summaries, vb, kb⟩ := i
      cases cid with
      | none =>
        simpa [toIndices, IndexWC.fromIndex, wcToRc, IndexRC.toIndex,
          Index.cid] using ih
      | some c =>
        simpa [toIndices, IndexWC.fromIndex, wcToRc, IndexRC.toIndex,
          Index.cid] using ih

/-- C1: for every vector of indices, any key and any (24-byte) nonce,
provided the zstd/CBOR record pipeline round-trips the written records,
`deserialize_compressed` applied to `serialize_compressed` returns the
original vector: every field of every leaf and branch index is
preserved, purged children come back with `cid = none`, and the CIDs of
non-purged children are reattached in the original child order. -/
theorem serialize_deserialize_roundtrip
    (ks : List Nat → List Nat → Nat → Nat) (key nonce : List Nat)
    (enc : List (IndexWC σ) → List Nat)
    (dec : List Nat → Option (List (IndexRC σ)))
    (items : List (Index σ Link))
    (hnonce : nonce.length = 24)
    (hdec : dec (enc (items.map IndexWC.fromIndex))
      = some ((items.map IndexWC.fromIndex).map wcToRc)) :
    deserialize_compressed ks key dec
        (serialize_compressed ks key nonce enc items)
      = .ok items := by
  have htake :
      (nonce ++ enc (items.map IndexWC.fromIndex)).take 24 = nonce :=
    List.take_left' hnonce
  have hdrop :
      (nonce ++ enc (items.map IndexWC.fromIndex)).drop 24
        = enc (items.map IndexWC.fromIndex) :=
    List.drop_left' hnonce
  simp only [serialize_compressed, deserialize_compressed, htake, hdrop]
  have hlen :
      ¬ (nonce ++
          applyKeystream (ks key nonce) 0
            (enc (items.map IndexWC.fromIndex))).length < 24 := by
    simp [List.length_append, hnonce]
  rw [if_neg hlen]
  rw [List.take_left' hnonce, List.drop_left' hnonce,
    applyKeystream_applyKeystream, hdec]
  rw [List.map_map, collectCids_eq_filterMap]
  exact congrArg Except.ok (toIndices_wc_roundtrip items)

/-- Shared concrete fixture: a heterogeneous index vector (a live leaf,
a purged branch, a live branch, a purged leaf) over `σ = Nat` key data
and `Link = Nat`. -/
def itemsW : List (Index Nat Nat) :=
  [.leaf { sealed := true, cid := some 5, keys := 7, value_bytes := 3 },
   .branch { count := 10, level := 2, sealed := false, cid := none,
             summaries := 8, value_bytes := 4, key_bytes := 9 },
   .branch { count := 11, level := 1, sealed := true, cid := some 6,
             summaries := 2, value_bytes := 1, key_bytes := 0 },
   .leaf { sealed := false, cid := none, keys := 1, value_bytes := 0 }]

/-- Shared concrete fixture: the records `serialize_compressed` writes
for `itemsW`. -/
def recordsW : List (IndexRC Nat) :=
  (itemsW.map IndexWC.fromIndex).map wcToRc

/-- Shared concrete fixture: a keystream function standing for
XSalsa20. -/
def ksW : List Nat → List Nat → Nat → Nat := fun _ _ i => i

theorem serialize_deserialize_roundtrip_witness :
    (List.replicate 24 (0 : Nat)).length = 24
    ∧ (fun _ : List Nat => some recordsW)
        ((fun _ : List (IndexWC Nat) => [1, 2, 3])
          (itemsW.map IndexWC.fromIndex))
      = some ((itemsW.map IndexWC.fromIndex).map wcToRc)
    ∧ deserialize_compressed ksW []
        (fun _ => some recordsW)
        (serialize_compressed ksW []
          (List.replicate 24 0) (fun _ => [1, 2, 3]) itemsW)
      = .ok itemsW :=
  ⟨by decide, rfl,
    serialize_deserialize_roundtrip ksW []
      (List.replicate 24 0) (fun _ => [1, 2, 3])
      (fun _ => some recordsW) itemsW (by decide) rfl⟩

/-! ## CID attachment -/

theorem toIndex_cid_tail (r : IndexRC σ) (cids : List Link) :
    ((r.toIndex cids : Index σ Link × List Link)).1.cid
        = (if r.purged then none else cids.head?)
      ∧ (r.toIndex cids : Index σ Link × List Link).2
        = (if r.purged then cids else cids.tail) := by
  unfold IndexRC.toIndex
  cases r.level <;> cases r.count <;> cases r.key_bytes <;>
    cases hp : r.purged <;> simp [Index.cid, hp]

theorem toIndices_length (records : List (IndexRC σ)) :
    ∀ cids : List Link,
      (toIndices records cids).length = records.length := by
  induction records with
  | nil => intro cids; rfl
  | cons r rs ih => intro cids; simp [toIndices, ih]

theorem toIndices_purged_none (records : List (IndexRC σ)) :
    ∀ cids : List Link,
      ∀ p ∈ records.zip (toIndices records cids),
        p.1.purged = true → p.2.cid = none := by
  induction records with
  | nil => intro cids p hp; simp [toIndices] at hp
  | cons r rs ih =>
    intro cids p hp hpu
    simp only [toIndices, List.zip_cons_cons, List.mem_cons] at hp
    rcases hp with rfl | hp
    · show ((r.toIndex cids).1).cid = none
      have hpu2 : r.purged = true := hpu
      have h1 := (toIndex_cid_tail r cids).1
      simpa [hpu2] using h1
    · exact ih _ p hp hpu

theorem toIndices_filterMap_cid (records : List (IndexRC σ)) :
    ∀ cids : List Link,
      records.countP (fun r => !r.purged) ≤ cids.length →
      (toIndices records cids).filterMap Index.cid
        = cids.take (records.countP (fun r => !r.purged)) := by
  induction records with
  | nil => intro cids h; simp [toIndices]
  | cons r rs ih =>
    intro cids h
    have hcid := (toIndex_cid_tail r cids).1
    have htail := (toIndex_cid_tail r cids).2
    cases hp : r.purged with
    | true =>
      have hc : (r :: rs).countP (fun r => !r.purged)
          = rs.countP (fun r => !r.purged) := by
        simp [List.countP_cons, hp]
      rw [hc] at h ⊢
      simp only [hp, if_pos] at hcid htail
      simp only [toIndices, List.filterMap_cons, hcid, htail]
      exact ih cids h
    | false =>
      have hc : (r :: rs).countP (fun r => !r.purged)
          = rs.countP (fun r => !r.purged) + 1 := by
        simp [List.countP_cons, hp]
      rw [hc] at h ⊢
      cases cids with
      | nil => simp at h
      | cons c cs =>
        simp only [hp, if_neg, Bool.false_eq_true, not_false_iff,
          List.head?_cons, List.tail_cons] at hcid htail
        simp only [toIndices, List.filterMap_cons, hcid, htail,
          List.take_succ_cons]
        have hle : rs.countP (fun r => !r.purged) ≤ cs.length := by
          simpa [Nat.succ_le_succ_iff] using h
        rw [ih cs hle]

/-- C3: the outer CID list written by `serialize_compressed` is exactly
the CIDs of the children whose `cid` is `Some`, in child order; and on
the read side, when the outer list holds at least as many CIDs as there
are non-purged records, the CIDs are reattached from the front of the
list, in order, exactly to the records whose `purged` flag is false
(purged records always come back with `cid = none`). -/
theorem cid_list_exact_and_reattached_in_order
    (ks : List Nat → List Nat → Nat → Nat) (key nonce : List Nat)
    (enc : List (IndexWC σ) → List Nat)
    (items : List (Index σ Link))
    (records : List (IndexRC σ)) (cids : List Link)
    (hcount : records.countP (fun r => !r.purged) ≤ cids.length) :
    (serialize_compressed ks key nonce enc items).1
        = items.filterMap Index.cid
      ∧ (toIndices records cids).filterMap Index.cid
          = cids.take (records.countP (fun r => !r.purged))
      ∧ ∀ p ∈ records.zip (toIndices records cids),
          p.1.purged = true → p.2.cid = none := by
  refine ⟨?_, toIndices_filterMap_cid records cids hcount,
    toIndices_purged_none records cids⟩
  simpa [serialize_compressed] using collectCids_eq_filterMap items

theorem cid_list_exact_and_reattached_in_order_witness :
    recordsW.countP (fun r => !r.purged) ≤ ([20, 21] : List Nat).length
    ∧ ((serialize_compressed ksW [] (List.replicate 24 0)
          (fun _ => [1, 2, 3]) itemsW).1
        = itemsW.filterMap Index.cid
      ∧ (toIndices recordsW [20, 21]).filterMap Index.cid
          = [20, 21].take (recordsW.countP (fun r => !r.purged))
      ∧ ∀ p ∈ recordsW.zip (toIndices recordsW [20, 21]),
          p.1.purged = true → p.2.cid = none) :=
  ⟨by decide,
    cid_list_exact_and_reattached_in_order ksW []
      (List.replicate 24 0) (fun _ => [1, 2, 3]) itemsW recordsW
      [20, 21] (by decide)⟩

/-! ## Exhausted CID deque -/

theorem toIndices_exhausted (records : List (IndexRC σ)) :
    ∀ (cids : List Link) (i : Nat), i < records.length →
      cids.length ≤ (records.take i).countP (fun r => !r.purged) →
      ∃ idx, (toIndices records cids)[i]? = some idx ∧ idx.cid = none := by
  induction records with
  | nil => intro cids i hi; simp at hi
  | cons r rs ih =>
    intro cids i hi hex
    cases i with
    | zero =>
      simp only [List.take_zero, List.countP_nil, Nat.le_zero,
        List.length_eq_zero] at hex
      subst hex
      refine ⟨(r.toIndex []).1, by simp [toIndices], ?_⟩
      have h1 := (toIndex_cid_tail r ([] : List Link)).1
      cases hp : r.purged <;> simpa [hp] using h1
    | succ j =>
      have htail := (toIndex_cid_tail r cids).2
      have hj : j < rs.length := by simpa using hi
      simp only [toIndices, List.getElem?_cons_succ]
      cases hp : r.purged with
      | true =>
        simp only [hp] at htail
        rw [htail]
        refine ih cids j hj ?_
        simpa [List.take_succ_cons, List.countP_cons, hp] using hex
      | false =>
        simp only [hp, if_neg, Bool.false_eq_true, not_false_iff]
          at htail
        rw [htail]
        refine ih cids.tail j hj ?_
        have hex2 : cids.length ≤ (rs.take j).countP (fun r => !r.purged) + 1 := by
          simpa [List.take_succ_cons, List.countP_cons, hp] using hex
        have : cids.length - 1 ≤ (rs.take j).countP (fun r => !r.purged) :=
          Nat.sub_le_of_le_add hex2
        simpa [List.length_tail] using this

/-- C10: when the outer CID list holds fewer CIDs than there are
non-purged records, `deserialize_compressed` still succeeds, and every
record from the point the deque is exhausted on comes back with
`cid = none`, indistinguishable from a purged node. -/
theorem deserialize_short_cid_list_silent
    (ks : List Nat → List Nat → Nat → Nat) (key : List Nat)
    (dec : List Nat → Option (List (IndexRC σ)))
    (cids : List Link) (bs : List Nat) (records : List (IndexRC σ))
    (hlen : 24 ≤ bs.length)
    (hdec : dec (applyKeystream (ks key (bs.take 24)) 0 (bs.drop 24))
      = some records) :
    deserialize_compressed ks key dec (cids, .bytes bs)
        = .ok (toIndices records cids)
      ∧ (toIndices records cids).length = records.length
      ∧ ∀ i, i < records.length →
          cids.length ≤ (records.take i).countP (fun r => !r.purged) →
          ∃ idx, (toIndices records cids)[i]? = some idx
            ∧ idx.cid = none := by
  refine ⟨?_, toIndices_length records cids,
    fun i hi hex => toIndices_exhausted records cids i hi hex⟩
  simp only [deserialize_compressed, if_neg (Nat.not_lt.mpr hlen), hdec]

theorem deserialize_short_cid_list_silent_witness :
    24 ≤ (List.replicate 24 (0 : Nat)).length
    ∧ (fun _ : List Nat => some recordsW)
        (applyKeystream (ksW [] ((List.replicate 24 (0 : Nat)).take 24)) 0
          ((List.replicate 24 (0 : Nat)).drop 24))
      = some recordsW
    ∧ (deserialize_compressed ksW []
          (fun _ => some recordsW) (([20] : List Nat), .bytes (List.replicate 24 0))
        = .ok (toIndices recordsW [20])
      ∧ (toIndices recordsW [20]).length = recordsW.length
      ∧ ∀ i, i < recordsW.length →
          ([20] : List Nat).length ≤ (recordsW.take i).countP (fun r => !r.purged) →
          ∃ idx, (toIndices recordsW [20])[i]? = some idx
            ∧ idx.cid = none) :=
  ⟨by decide, rfl,
    deserialize_short_cid_list_silent ksW []
      (fun _ => some recordsW) [20] (List.replicate 24 0) recordsW
      (by decide) rfl⟩

/-! ## Record shape: branch vs leaf -/

theorem toIndex_isBranch (r : IndexRC σ) (cids : List Link) :
    ((r.toIndex cids : Index σ Link × List Link)).1.isBranch
      = (r.level.isSome && r.count.isSome && r.key_bytes.isSome) := by
  unfold IndexRC.toIndex
  cases r.level <;> cases r.count <;> cases r.key_bytes <;>
    simp [Index.isBranch]

theorem toIndices_isBranch (records : List (IndexRC σ)) :
    ∀ (cids : List Link) (i : Nat) (r : IndexRC σ) (idx : Index σ Link),
      records[i]? = some r → (toIndices records cids)[i]? = some idx →
      idx.isBranch = (r.level.isSome && r.count.isSome && r.key_bytes.isSome) := by
  induction records with
  | nil => intro cids i r idx hr; simp at hr
  | cons q qs ih =>
    intro cids i r idx hr hidx
    cases i with
    | zero =>
      simp only [toIndices, List.getElem?_cons_zero, Option.some_inj]
        at hr hidx
      subst hr
      rw [← hidx]
      exact toIndex_isBranch q cids
    | succ j =>
      simp only [List.getElem?_cons_succ, toIndices] at hr hidx
      exact ih _ j r idx hr hidx

/-- C2, counterexample: a record carrying only `count` of the three
optional branch fields (CBOR can encode any subset of the optional
keys) does not make `deserialize_compressed` fail with a format error;
it silently yields a `LeafIndex`. -/
theorem partial_record_yields_leaf_not_error :
    deserialize_compressed (fun _ _ _ => 0) []
      (fun _ => some
        [({ sealed := false, purged := true, data := (0 : Nat),
            count := some 1, level := none, value_bytes := 0,
            key_bytes := none } : IndexRC Nat)])
      (([] : List Nat), CborValue.bytes (List.replicate 24 0))
      = .ok [Index.leaf
          { sealed := false, cid := none, keys := 0, value_bytes := 0 }] := by
  rfl

/-- C2, amended: when `deserialize_compressed` decodes a per-child
record, a record with all three optional fields (`count`, `level`,
`key_bytes`) present yields a `BranchIndex`, and a record with any of
the three absent — all absent or only some — silently yields a
`LeafIndex` (the present branch fields are dropped); no record shape
causes a deserialization error. -/
theorem record_shape_amended
    (ks : List Nat → List Nat → Nat → Nat) (key : List Nat)
    (dec : List Nat → Option (List (IndexRC σ)))
    (cids : List Link) (bs : List Nat) (records : List (IndexRC σ))
    (hlen : 24 ≤ bs.length)
    (hdec : dec (applyKeystream (ks key (bs.take 24)) 0 (bs.drop 24))
      = some records) :
    ∃ out, deserialize_compressed ks key dec (cids, .bytes bs) = .ok out
      ∧ out.length = records.length
      ∧ ∀ (i : Nat) (r : IndexRC σ) (idx : Index σ Link),
          records[i]? = some r → out[i]? = some idx →
          idx.isBranch
            = (r.level.isSome && r.count.isSome && r.key_bytes.isSome) := by
  refine ⟨toIndices records cids, ?_, toIndices_length records cids,
    fun i r idx hr hidx => toIndices_isBranch records cids i r idx hr hidx⟩
  simp only [deserialize_compressed, if_neg (Nat.not_lt.mpr hlen), hdec]

theorem record_shape_amended_witness :
    24 ≤ (List.replicate 24 (0 : Nat)).length
    ∧ (fun _ : List Nat => some recordsW)
        (applyKeystream (ksW [] ((List.replicate 24 (0 : Nat)).take 24)) 0
          ((List.replicate 24 (0 : Nat)).drop 24))
      = some recordsW
    ∧ ∃ out,
        deserialize_compressed ksW []
            (fun _ => some recordsW)
            (([20, 21] : List Nat), .bytes (List.replicate 24 0))
          = .ok out
        ∧ out.length = recordsW.length
        ∧ ∀ (i : Nat) (r : IndexRC Nat) (idx : Index Nat Nat),
            recordsW[i]? = some r → out[i]? = some idx →
            idx.isBranch
              = (r.level.isSome && r.count.isSome && r.key_bytes.isSome) :=
  ⟨by decide, rfl,
    record_shape_amended ksW [] (fun _ => some recordsW)
      [20, 21] (List.replicate 24 0) recordsW (by decide) rfl⟩

/-- C5: `deserialize_compressed` fails with the nonce-missing error
whenever the byte string is shorter than 24 bytes; fails with the
byte-string-expected format error whenever the second element of the
outer pair is not a CBOR byte string; and for a byte string of length
at least 24 it splits it into a 24-byte nonce and the ciphertext,
decrypts the ciphertext with the XSalsa20 keystream of `(key, nonce)`,
and hands the result to the zstd/CBOR record decoder. -/
theorem deserialize_error_cases
    (ks : List Nat → List Nat → Nat → Nat) (key : List Nat)
    (dec : List Nat → Option (List (IndexRC σ)))
    (cids : List Link) (bs : List Nat) (v : CborValue) :
    (bs.length < 24 →
      deserialize_compressed ks key dec (cids, .bytes bs)
        = .error .nonceMissing)
    ∧ (v.isBytes = false →
      deserialize_compressed ks key dec (cids, v)
        = (.error .formatMismatch : Except DeserError (List (Index σ Link))))
    ∧ (24 ≤ bs.length →
      ∃ nonce cipher, bs = nonce ++ cipher ∧ nonce.length = 24
        ∧ deserialize_compressed ks key dec (cids, .bytes bs)
          = match dec (applyKeystream (ks key nonce) 0 cipher) with
            | some records => .ok (toIndices records cids)
            | none => .error .decodeFailed) := by
  refine ⟨fun hshort => ?_, fun hnotbytes => ?_, fun hlen => ?_⟩
  · simp only [deserialize_compressed, if_pos hshort]
  · cases v <;> simp [CborValue.isBytes, deserialize_compressed]
      at hnotbytes ⊢
  · refine ⟨bs.take 24, bs.drop 24, (List.take_append_drop 24 bs).symm,
      ?_, ?_⟩
    · simpa [List.length_take] using hlen
    · simp only [deserialize_compressed, if_neg (Nat.not_lt.mpr hlen)]

theorem deserialize_error_cases_witness :
    (([9] : List Nat).length < 24
      ∧ deserialize_compressed ksW []
          (fun _ => some ([] : List (IndexRC Nat)))
          (([] : List Nat), .bytes [9])
        = .error .nonceMissing)
    ∧ (CborValue.isBytes .null = false
      ∧ deserialize_compressed ksW []
          (fun _ => some ([] : List (IndexRC Nat)))
          (([] : List Nat), .null)
        = .error .formatMismatch)
    ∧ (24 ≤ (List.replicate 25 (0 : Nat)).length
      ∧ ∃ nonce cipher,
          List.replicate 25 (0 : Nat) = nonce ++ cipher
          ∧ nonce.length = 24
          ∧ deserialize_compressed ksW []
              (fun _ => some ([] : List (IndexRC Nat)))
              (([] : List Nat), .bytes (List.replicate 25 0))
            = match (fun _ : List Nat => some ([] : List (IndexRC Nat)))
                  (applyKeystream (ksW [] nonce) 0 cipher) with
              | some records => .ok (toIndices records ([] : List Nat))
              | none => .error .decodeFailed) :=
  ⟨⟨by decide,
      (deserialize_error_cases ksW []
        (fun _ => some ([] : List (IndexRC Nat))) ([] : List Nat) [9] .null).1 (by decide)⟩,
    ⟨rfl,
      (deserialize_error_cases ksW []
        (fun _ => some ([] : List (IndexRC Nat))) ([] : List Nat) [9] .null).2.1 rfl⟩,
    ⟨by decide,
      (deserialize_error_cases ksW []
        (fun _ => some ([] : List (IndexRC Nat))) ([] : List Nat) (List.replicate 25 0) .null).2.2
        (by decide)⟩⟩

/-! ## CompactSeq lemmas -/

theorem toVec_eq_self (s : List κ) : toVec s = s := by
  unfold toVec SimpleCompactSeq.count SimpleCompactSeq.get
  induction s with
  | nil => rfl
  | cons a t ih =>
    rw [List.length_cons, List.range_succ_eq_map, List.filterMap_cons]
    simp only [List.getElem?_cons_zero, List.filterMap_map]
    have : (fun i => (a :: t)[Nat.succ i]?) = fun i => t[i]? := by
      funext i
      exact List.getElem?_cons_succ
    simp only [Function.comp_def, this, ih]

theorem foldl_push (xs : List κ) :
    ∀ acc : List κ, xs.foldl SimpleCompactSeq.push acc = acc ++ xs := by
  induction xs with
  | nil => simp
  | cons x t ih => intro acc; simp [SimpleCompactSeq.push, ih]

/-- C6: `CompactSeq::new` fails with the empty-iterator error exactly
when the iterator yields nothing; on a non-empty iterator it builds
`single` of the first item followed by `push` of each later item, so
that for `SimpleCompactSeq` the result materializes (`to_vec`) to the
input items in order. -/
theorem compactSeq_new_spec (κ : Type) (items : List κ) :
    ((∃ e, (simpleOps κ).new items = .error e) ↔ items = [])
    ∧ (∀ x xs, items = x :: xs →
        (simpleOps κ).new items
          = .ok (xs.foldl (simpleOps κ).push ((simpleOps κ).single x)))
    ∧ ∀ s, (simpleOps κ).new items = .ok s → toVec s = items := by
  refine ⟨⟨?_, ?_⟩, ?_, ?_⟩
  · rintro ⟨e, he⟩
    cases items with
    | nil => rfl
    | cons x xs => simp [CompactSeqOps.new] at he
  · rintro rfl
    exact ⟨"iterator must have at least one item", rfl⟩
  · rintro x xs rfl
    rfl
  · intro s hs
    cases items with
    | nil => simp [CompactSeqOps.new] at hs
    | cons x xs =>
      simp only [CompactSeqOps.new, Except.ok.injEq] at hs
      subst hs
      rw [show (simpleOps κ).push = SimpleCompactSeq.push from rfl,
        foldl_push]
      simpa [simpleOps, SimpleCompactSeq.single] using
        toVec_eq_self (x :: xs)

theorem compactSeq_new_spec_witness :
    ([3, 1, 2] : List Nat) = 3 :: [1, 2]
    ∧ (simpleOps Nat).new [3, 1, 2] = .ok [3, 1, 2]
    ∧ ((simpleOps Nat).new [3, 1, 2]
        = .ok ([1, 2].foldl (simpleOps Nat).push ((simpleOps Nat).single 3)))
    ∧ toVec ([3, 1, 2] : List Nat) = [3, 1, 2] :=
  ⟨rfl, rfl,
    (compactSeq_new_spec Nat [3, 1, 2]).2.1 3 [1, 2] rfl,
    (compactSeq_new_spec Nat [3, 1, 2]).2.2 [3, 1, 2] rfl⟩

/-- Spec-side definition, written from the spec sentence only: the
left-fold of `get(0) .. get(count-1)` under `combine`, to be compared
with the implementation of `summarize`. -/
def specLeftFold (comb : κ → κ → κ) (s : List κ) : Nat → Option κ
  | 0 => none
  | 1 => SimpleCompactSeq.get s 0
  | n + 2 =>
    match specLeftFold comb s (n + 1), SimpleCompactSeq.get s (n + 1) with
    | some acc, some x => some (comb acc x)
    | _, _ => none

theorem specLeftFold_cons (comb : κ → κ → κ) (a : κ) (rest : List κ) :
    ∀ n, n ≤ rest.length →
      specLeftFold comb (a :: rest) (n + 1)
        = some ((rest.take n).foldl comb a) := by
  intro n
  induction n with
  | zero => intro h; simp [specLeftFold, SimpleCompactSeq.get]
  | succ m ih =>
    intro h
    have hm : m ≤ rest.length := Nat.le_of_succ_le h
    have hlt : m < rest.length := h
    show specLeftFold comb (a :: rest) (m + 2) = _
    rw [show specLeftFold comb (a :: rest) (m + 2)
        = match specLeftFold comb (a :: rest) (m + 1),
            SimpleCompactSeq.get (a :: rest) (m + 1) with
          | some acc, some x => some (comb acc x)
          | _, _ => none from rfl]
    rw [ih hm]
    have hget : SimpleCompactSeq.get (a :: rest) (m + 1)
        = some (rest.get ⟨m, hlt⟩) := by
      simp [SimpleCompactSeq.get, List.getElem?_cons_succ,
        List.getElem?_eq_getElem hlt]
    rw [hget]
    have htake : rest.take (m + 1)
        = rest.take m ++ [rest.get ⟨m, hlt⟩] := by
      rw [List.take_succ]
      simp [List.getElem?_eq_getElem hlt]
    rw [htake, List.foldl_append]
    rfl

/-- C7: for every `SimpleCompactSeq` with at least one element,
`summarize` equals the left-fold under `combine` of
`get(0) .. get(count-1)`, in that order. -/
theorem summarize_is_left_fold (comb : κ → κ → κ) (s : List κ)
    (h : 1 ≤ SimpleCompactSeq.count s) :
    SimpleCompactSeq.summarize comb s
      = specLeftFold comb s (SimpleCompactSeq.count s) := by
  cases s with
  | nil => simp [SimpleCompactSeq.count] at h
  | cons a rest =>
    have : SimpleCompactSeq.count (a :: rest) = rest.length + 1 := by
      simp [SimpleCompactSeq.count]
    rw [this, specLeftFold_cons comb a rest rest.length (Nat.le_refl _),
      List.take_length]
    rfl

theorem summarize_is_left_fold_witness :
    1 ≤ SimpleCompactSeq.count ([5, 6, 7] : List Nat)
    ∧ SimpleCompactSeq.summarize Nat.add [5, 6, 7]
      = specLeftFold Nat.add [5, 6, 7]
          (SimpleCompactSeq.count ([5, 6, 7] : List Nat)) :=
  ⟨by decide, summarize_is_left_fold Nat.add [5, 6, 7] (by decide)⟩

/-! ## extend / push -/

theorem extend_length (comb : κ → κ → κ) :
    ∀ (s : List κ) (x : κ),
      (SimpleCompactSeq.extend comb s x).length = s.length
  | [], _ => rfl
  | [_], _ => rfl
  | a :: b :: t, x => by
    simp [SimpleCompactSeq.extend, extend_length comb (b :: t) x]

theorem extend_getElem (comb : κ → κ → κ) :
    ∀ (s : List κ) (x : κ) (i : Nat), i + 1 < s.length →
      (SimpleCompactSeq.extend comb s x)[i]? = s[i]?
  | [], _, _, h => by simp at h
  | [_], _, _, h => by simp at h
  | a :: b :: t, x, 0, _ => by simp [SimpleCompactSeq.extend]
  | a :: b :: t, x, i + 1, h => by
    have hi : i + 1 < (b :: t).length := by simpa using h
    simp only [SimpleCompactSeq.extend, List.getElem?_cons_succ]
    exact extend_getElem comb (b :: t) x i hi

theorem extend_getLast (comb : κ → κ → κ) :
    ∀ (s : List κ) (x : κ), 1 ≤ s.length →
      (SimpleCompactSeq.extend comb s x).getLast?
        = s.getLast?.map (fun a => comb a x)
  | [], _, h => by simp at h
  | [a], x, _ => rfl
  | a :: b :: t, x, _ => by
    have ih := extend_getLast comb (b :: t) x (by simp)
    have hne : SimpleCompactSeq.extend comb (b :: t) x ≠ [] := by
      intro hnil
      have := extend_length comb (b :: t) x
      rw [hnil] at this
      simp at this
    obtain ⟨y, ys, hy⟩ := List.exists_cons_of_ne_nil hne
    show (a :: SimpleCompactSeq.extend comb (b :: t) x).getLast? = _
    rw [hy, List.getLast?_cons_cons, ← hy, ih, List.getLast?_cons_cons]

/-- C8: on a `SimpleCompactSeq` with at least one element, `extend`
combines the argument into the last element, leaving the count and
every earlier element unchanged, while `push` appends the argument as a
new last element, increasing the count by exactly one and leaving every
existing element unchanged. -/
theorem extend_push_spec (comb : κ → κ → κ) (s : List κ) (x : κ)
    (h : 1 ≤ SimpleCompactSeq.count s) :
    (SimpleCompactSeq.count (SimpleCompactSeq.extend comb s x)
        = SimpleCompactSeq.count s
      ∧ (∀ i, i + 1 < SimpleCompactSeq.count s →
          SimpleCompactSeq.get (SimpleCompactSeq.extend comb s x) i
            = SimpleCompactSeq.get s i)
      ∧ (SimpleCompactSeq.extend comb s x).getLast?
          = s.getLast?.map (fun a => comb a x))
    ∧ (SimpleCompactSeq.count (SimpleCompactSeq.push s x)
        = SimpleCompactSeq.count s + 1
      ∧ (∀ i, i < SimpleCompactSeq.count s →
          SimpleCompactSeq.get (SimpleCompactSeq.push s x) i
            = SimpleCompactSeq.get s i)
      ∧ (SimpleCompactSeq.push s x).getLast? = some x) := by
  refine ⟨⟨extend_length comb s x, fun i hi => ?_,
      extend_getLast comb s x h⟩,
    ⟨by simp [SimpleCompactSeq.count, SimpleCompactSeq.push],
      fun i hi => ?_, List.getLast?_concat s⟩⟩
  · exact extend_getElem comb s x i hi
  · unfold SimpleCompactSeq.get SimpleCompactSeq.push
    exact List.getElem?_append_left hi

theorem extend_push_spec_witness :
    1 ≤ SimpleCompactSeq.count ([5, 6] : List Nat)
    ∧ SimpleCompactSeq.extend Nat.add [5, 6] 3 = [5, 9]
    ∧ SimpleCompactSeq.push ([5, 6] : List Nat) 3 = [5, 6, 3]
    ∧ SimpleCompactSeq.count
        (SimpleCompactSeq.extend Nat.add [5, 6] 3)
      = SimpleCompactSeq.count ([5, 6] : List Nat)
    ∧ (SimpleCompactSeq.push ([5, 6] : List Nat) 3).getLast? = some 3 :=
  ⟨by decide, rfl, rfl,
    (extend_push_spec Nat.add [5, 6] 3 (by decide)).1.1,
    (extend_push_spec Nat.add [5, 6] 3 (by decide)).2.2.2⟩

/-- C9: `Branch::new` panics (modelled as `none`) exactly on the empty
children vector, so every constructed in-memory `Branch` is non-empty
and `last_child` / `last_child_mut` return its final child without
panicking. -/
theorem branch_nonempty_last_child (cs : List α) :
    Branch.new ([] : List α) = none
    ∧ ∀ b, Branch.new cs = some b →
        b.children = cs ∧ cs ≠ []
        ∧ ∃ x, b.lastChild = some x ∧ b.lastChildMut = some x
            ∧ cs.getLast? = some x := by
  refine ⟨rfl, fun b hb => ?_⟩
  unfold Branch.new at hb
  cases cs with
  | nil => simp at hb
  | cons c t =>
    simp only [List.isEmpty_cons, Bool.false_eq_true, if_neg,
      Option.some_inj, not_false_iff] at hb
    subst hb
    refine ⟨rfl, by simp, (c :: t).getLast (by simp), ?_, ?_, ?_⟩ <;>
      exact (List.getLast?_eq_getLast (c :: t) (by simp))

theorem branch_nonempty_last_child_witness :
    Branch.new ([] : List Nat) = none
    ∧ (Branch.new ([4, 8] : List Nat) = some ⟨[4, 8]⟩
      ∧ (⟨[4, 8]⟩ : Branch Nat).children = [4, 8]
      ∧ ([4, 8] : List Nat) ≠ []
      ∧ ∃ x, (⟨[4, 8]⟩ : Branch Nat).lastChild = some x
          ∧ (⟨[4, 8]⟩ : Branch Nat).lastChildMut = some x
          ∧ ([4, 8] : List Nat).getLast? = some x) :=
  ⟨rfl, rfl,
    (branch_nonempty_last_child ([4, 8] : List Nat)).2 ⟨[4, 8]⟩ rfl⟩

end Banyan
